import Mathlib

/-!
Verification of the prompt-template MCP server (src/index.ts, src/db/schema.ts).

Strings are modelled as `List Char`.  The pieces embedded here, each
translated from the TypeScript source:

* `extractInputs` — the placeholder extractor (index.ts 18-28): the regex
  scan of /\x7b([^\x7d]+)\x7d/g is `extractScan` (leftmost match, body =
  maximal run of non-closing-brace characters, at least one, followed by a
  closing brace; the scan resumes after each match), and the `Set`
  deduplication keeping first-occurrence order is `List.foldl insertUnique`.
* `jsReplace` — JavaScript `String.prototype.replace` with a global regex
  whose pattern is the literal text "brace, key, brace" and a string
  replacement; `jsSubst` is ECMAScript GetSubstitution for a pattern with no
  capture groups (dollar-dollar, dollar-ampersand, dollar-backquote,
  dollar-quote are special; everything else is literal).  The code
  interpolates each key raw into the RegExp constructor, so the behaviour
  depends on the key's characters.  A key free of regex syntax characters
  (`regexLiteralKey`) compiles to a pattern matching exactly the literal
  braced key, which `jsReplace` models exactly.  A key that makes the
  pattern an invalid regex — such as a lone opening parenthesis, an
  unclosed group — makes the constructor throw, and the handler's catch
  turns that into an error response; `renderAllE` models this with its
  error branch.  A key with metacharacters that still compiles (such as a
  key containing a star, which then never matches its own braced spelling)
  behaves as neither; the model conservatively routes every non-literal
  key to the error branch, and no theorem below evaluates the model at
  such a key: every general statement about rendering restricts all keys
  to `regexLiteralKey`, and every concrete rendering input uses
  metacharacter-free keys or the invalid parenthesis key itself.
* the store (`Db`, `save_prompt_template`, `update_prompt_template`,
  `delete_prompt_template`, `get_prompt_by_name`) — index.ts 100-124,
  197-251, 321-345, 418-484 together with the cascade declared in
  db/schema.ts (promptInputs.templateId references promptTemplates.id with
  onDelete cascade).  Store-level I/O failures are outside the model; the
  success and not-found paths are embedded exactly.
* `loadAndRegisterPrompts` — the bootstrap control flow (index.ts 39-90):
  a single try/catch around the whole for-loop, the registration step for
  one template abstracted as a fallible function.
-/

abbrev Str := List Char

/-- Base case of the scan below: the single character `c` is a placeholder
body exactly when a closing brace follows immediately. -/
def grabBody1 (c : Char) : Str → Option (Str × Str)
  | [] => none
  | d :: rem => if d = '}' then some ([c], rem) else none

/-- Scan the characters following an opening brace: return the placeholder
body (the maximal run of non-closing-brace characters, which must be
nonempty) and the remainder after the closing brace, or `none` when the
regex body [^\x7d]+ followed by a closing brace cannot match here. -/
def grabBody : Str → Option (Str × Str)
  | [] => none
  | c :: rest =>
    if c = '}' then none
    else
      match grabBody rest with
      | some (b, rem) => some (c :: b, rem)
      | none => grabBody1 c rest

/-- Fuelled worker for the global regex scan of index.ts line 19: at each
position, if an opening brace starts a match, record its body and resume
after the match; otherwise advance one character. -/
def extractScanF : Nat → Str → List Str
  | 0, _ => []
  | _ + 1, [] => []
  | fuel + 1, c :: rest =>
    if c = '{' then
      match grabBody rest with
      | some (b, rem) => b :: extractScanF fuel rem
      | none => extractScanF fuel rest
    else extractScanF fuel rest

/-- All regex match bodies of the template, in match order (with duplicates). -/
def extractScan (s : Str) : List Str := extractScanF s.length s

/-- Adding one element to a JavaScript `Set` whose insertion order is the
iteration order: keep the accumulator if the element is already present. -/
def insertUnique (acc : List Str) (x : Str) : List Str :=
  if x ∈ acc then acc else acc ++ [x]

/-- extractInputs of index.ts 18-28: the match bodies of the global regex
scan, deduplicated by a `Set` and returned in insertion order. -/
def extractInputs (s : Str) : List Str :=
  (extractScan s).foldl insertUnique []

/-- Specification-side deduplication: keep each element the first time it
occurs, skipping elements already seen. -/
def dedupSeen (seen : List Str) : List Str → List Str
  | [] => []
  | x :: xs => if x ∈ seen then dedupSeen seen xs else x :: dedupSeen (x :: seen) xs

/-- Specification-side first-occurrence deduplication. -/
def dedupKeepFirst (l : List Str) : List Str := dedupSeen [] l

example : extractInputs ['{', 'a', '}', '-', '{', 'b', '}', '-', '{', 'a', '}']
    = [['a'], ['b']] := by decide

example : extractInputs ['{', 'a', '}', ' ', '}', ' ', '{', 'b'] = [['a']] := by decide

example : extractInputs ['{', 'a', '{', 'b', '}'] = [['a', '{', 'b']] := by decide

example : extractInputs ['{', '}', '{', 'a', '}'] = [['a']] := by decide

/-- Drop the pattern from the front of a string: `some` of the remainder
when the pattern is a prefix, `none` otherwise. -/
def dropPre : Str → Str → Option Str
  | [], s => some s
  | _ :: _, [] => none
  | c :: cs, d :: ds => if c = d then dropPre cs ds else none

/-- ECMAScript GetSubstitution for a regex with no capture groups: in the
replacement string, dollar-dollar stands for a dollar sign, dollar-ampersand
for the matched text `m`, dollar-backquote for the portion `b` of the
subject before the match, dollar-quote for the portion `a` after it, and any
other character (digits included, as there are no capture groups) is
literal. -/
def jsSubst : Str → Str → Str → Str → Str
  | [], _, _, _ => []
  | [c], _, _, _ => [c]
  | c :: d :: rest2, m, b, a =>
    if c = '$' then
      if d = '$' then '$' :: jsSubst rest2 m b a
      else if d = '&' then m ++ jsSubst rest2 m b a
      else if d = Char.ofNat 96 then b ++ jsSubst rest2 m b a
      else if d = Char.ofNat 39 then a ++ jsSubst rest2 m b a
      else '$' :: d :: jsSubst rest2 m b a
    else c :: jsSubst (d :: rest2) m b a

/-- Fuelled worker for `String.prototype.replace` with a global regex whose
pattern is the literal text `p :: ps` and a string replacement `val`: scan
the subject left to right, keep non-matching characters, and at each match
emit `jsSubst` of the replacement (the accumulator `pre` is the portion of
the original subject already consumed, `rem` the portion after the match),
resuming after the match. -/
def jsReplaceF (p : Char) (ps val : Str) : Nat → Str → Str → Str
  | 0, _, s => s
  | _ + 1, _, [] => []
  | fuel + 1, pre, c :: rest =>
    match (if c = p then dropPre ps rest else none) with
    | some rem =>
      jsSubst val (p :: ps) pre rem ++ jsReplaceF p ps val fuel (pre ++ p :: ps) rem
    | none => c :: jsReplaceF p ps val fuel (pre ++ [c]) rest

/-- JavaScript `s.replace(new RegExp(escaped pattern, "g"), val)` for a
nonempty literal pattern. -/
def jsReplace (pat val s : Str) : Str :=
  match pat with
  | [] => s
  | p :: ps => jsReplaceF p ps val s.length [] s

/-- The literal fragment of the rendering loop shared by get_prompt_by_name
(index.ts 443-446) and the registered prompt closures (index.ts 62-67): fold
over the entries of the values object in order, replacing every occurrence
of the braced key by the value.  Exact for keys free of regex syntax
characters; `renderAllE` below adds the thrown-RegExp path. -/
def renderAll (body : Str) (values : List (Str × Str)) : Str :=
  values.foldl (fun acc kv => jsReplace ('{' :: (kv.1 ++ ['}'])) kv.2 acc) body

/-- ECMAScript regex syntax characters (the characters that do not stand for
themselves in a pattern): circumflex, dollar, backslash, dot, star, plus,
question mark, parentheses, square brackets, braces, and the vertical bar. -/
def regexMeta (c : Char) : Bool :=
  c = '^' || c = '$' || c = Char.ofNat 92 || c = '.' || c = '*' || c = '+' ||
  c = '?' || c = '(' || c = ')' || c = '[' || c = ']' || c = '{' || c = '}' ||
  c = '|'

/-- A key whose characters are all regex-literal: interpolated raw into the
RegExp constructor (index.ts 66, 148, 275, 445) it yields a valid pattern
matching exactly the literal braced key. -/
def regexLiteralKey (k : Str) : Bool := k.all (fun c => !(regexMeta c))

/-- The rendering loop of the code, with its exception path: each entry of
the values object builds a RegExp from the raw key and replaces globally; a
key that is not regex-literal is routed to the error branch, standing for
the constructor throwing out of the loop into the handler's catch (exact for
keys forming an invalid pattern, such as a lone opening parenthesis, and a
deliberate over-approximation for valid non-literal keys, at which no
theorem evaluates this model). -/
def renderAllE : Str → List (Str × Str) → Except Unit Str
  | body, [] => .ok body
  | body, kv :: rest =>
    if regexLiteralKey kv.1 then
      renderAllE (jsReplace ('{' :: (kv.1 ++ ['}'])) kv.2 body) rest
    else .error ()

/-- Fuelled literal global replacement: like `jsReplaceF` but inserting the
replacement verbatim; used to reason about replacement strings free of
dollar signs. -/
def replF (p : Char) (ps v : Str) : Nat → Str → Str
  | 0, s => s
  | _ + 1, [] => []
  | fuel + 1, c :: rest =>
    match (if c = p then dropPre ps rest else none) with
    | some rem => v ++ replF p ps v fuel rem
    | none => c :: replF p ps v fuel rest

/-- Literal global replacement of the nonempty pattern `p :: ps` by `v`. -/
def repl (p : Char) (ps v s : Str) : Str := replF p ps v s.length s

example :
    renderAll ['{', 'a', '}'] [(['a'], ['{', 'b', '}']), (['b'], ['X'])] = ['X'] := by
  decide

example : renderAll ['{', 'a', '}'] [(['a'], ['$', '&'])] = ['{', 'a', '}'] := by
  decide

example : renderAll ['{', 'a', '}'] [(['a'], ['{', 'a', '}'])] = ['{', 'a', '}'] := by
  decide

example :
    renderAll ['{', 'x', '{', 'x', 'v', 'y', '}', 'y', '}'] [(['x', 'v', 'y'], ['v'])]
      = ['{', 'x', 'v', 'y', '}'] := by decide

/-- One row of the prompt_templates table (db/schema.ts 5-12). -/
structure Template where
  id : Str
  name : Str
  description : Option Str
  template : Str
  createdAt : Str
  updatedAt : Str
deriving DecidableEq, Repr

/-- One row of the prompt_inputs table (db/schema.ts 14-21); the row's own
surrogate id is never read by the server, so it is omitted. -/
structure InputRow where
  templateId : Str
  name : Str
  description : Option Str
  required : Bool
deriving DecidableEq, Repr

/-- The durable store: the two tables. -/
structure Db where
  templates : List Template
  inputs : List InputRow
deriving DecidableEq, Repr

/-- The rows of prompt_inputs whose templateId matches (the select at
index.ts 438-440 and 44-46). -/
def rowsFor (db : Db) (tid : Str) : List InputRow :=
  db.inputs.filter (fun r => decide (r.templateId = tid))

/-- Lookup of a key in the values object (property access inputs[name]). -/
def lookupVal (vs : List (Str × Str)) (n : Str) : Option Str :=
  (vs.find? (fun kv => decide (kv.1 = n))).map Prod.snd

/-- JavaScript falsiness of inputs[name] for a string-valued record: true
when the property is absent or the empty string. -/
def falsy : Option Str → Bool
  | none => true
  | some v => decide (v = [])

/-- The missing-required computation of index.ts 448-451: required rows
whose supplied value is falsy, projected to their names. -/
def missingOf (rows : List InputRow) (vs : List (Str × Str)) : List Str :=
  (rows.filter (fun r => r.required && falsy (lookupVal vs r.name))).map (fun r => r.name)

/-- The structurally distinct responses of the get_prompt_by_name tool
(index.ts 418-484): the not-found error, the missing-required diagnostic
(missing names, raw body, known input names; not an error), the rendered
text, and the catch branch (index.ts 472-482) reached when the render loop
throws — an isError response carrying the exception message. -/
inductive PromptResult where
  | notFound (nm : Str)
  | missingReport (missing : List Str) (rawBody : Str) (known : List Str)
  | rendered (text : Str)
  | renderError
deriving DecidableEq, Repr

/-- The isError flag of the response: set on the not-found and catch
branches. -/
def PromptResult.isError : PromptResult → Bool
  | .notFound _ => true
  | .missingReport _ _ _ => false
  | .rendered _ => false
  | .renderError => true

/-- get_prompt_by_name (index.ts 418-484): find the first template with the
requested name, render the body against the supplied values (the render
loop runs before the missing check and may throw out to the catch), and
return the missing-required diagnostic when some required input is falsy,
the rendered text otherwise. -/
def get_prompt_by_name (db : Db) (nm : Str) (vs : List (Str × Str)) : PromptResult :=
  match db.templates.find? (fun t => decide (t.name = nm)) with
  | none => .notFound nm
  | some t =>
    match renderAllE t.template vs with
    | .error _ => .renderError
    | .ok rendered =>
      if missingOf (rowsFor db t.id) vs = [] then .rendered rendered
      else .missingReport (missingOf (rowsFor db t.id) vs) t.template
        ((rowsFor db t.id).map (fun r => r.name))

/-- save_prompt_template, success path (index.ts 100-124): insert the
template row (id and both timestamps assigned at creation) and one required
input row per extracted placeholder name. -/
def save_prompt_template (db : Db) (now newId nm : Str) (desc : Option Str)
    (tpl : Str) : Db :=
  { templates := db.templates ++ [⟨newId, nm, desc, tpl, now, now⟩],
    inputs := db.inputs ++ (extractInputs tpl).map (fun n => ⟨newId, n, none, true⟩) }

/-- Caller-visible outcome of an update or delete: the not-found result
carrying the missing id (isError true), or success carrying the affected
template row. -/
inductive MutOutcome where
  | notFound (id : Str)
  | ok (t : Template)
deriving DecidableEq, Repr

/-- The isError flag of a mutation outcome. -/
def MutOutcome.isError : MutOutcome → Bool
  | .notFound _ => true
  | .ok _ => false

/-- update_prompt_template (index.ts 197-251): when no template has the id,
return the not-found result with the store untouched; otherwise overwrite
the provided fields of the matching row (updateData carries only name,
description and template), and, only when a body was provided, delete the
template's input rows and insert rows for the newly extracted names. -/
def update_prompt_template (db : Db) (id : Str) (nm ds tpl : Option Str) :
    Db × MutOutcome :=
  match db.templates.find? (fun t => decide (t.id = id)) with
  | none => (db, .notFound id)
  | some t0 =>
    let upd : Template → Template := fun t =>
      if t.id = id then
        { t with
          name := nm.getD t.name
          description := match ds with | some d => some d | none => t.description
          template := tpl.getD t.template }
      else t
    let db1 : Db := { db with templates := db.templates.map upd }
    let db2 : Db :=
      match tpl with
      | some newTpl =>
        { db1 with
          inputs := db1.inputs.filter (fun r => decide (r.templateId ≠ id)) ++
            (extractInputs newTpl).map (fun n => ⟨id, n, none, true⟩) }
      | none => db1
    (db2, .ok (upd t0))

/-- delete_prompt_template (index.ts 321-345): when no template has the id,
return the not-found result with store and catalog untouched; otherwise
remove the template's name from the catalog (server.removePrompt), delete
the template row, and delete its input rows (the onDelete cascade of
db/schema.ts line 16). -/
def delete_prompt_template (db : Db) (cat : List Str) (id : Str) :
    Db × List Str × MutOutcome :=
  match db.templates.find? (fun t => decide (t.id = id)) with
  | none => (db, cat, .notFound id)
  | some t =>
    (⟨db.templates.filter (fun u => decide (u.id ≠ id)),
      db.inputs.filter (fun r => decide (r.templateId ≠ id))⟩,
     cat.filter (fun n => decide (n ≠ t.name)),
     .ok t)

/-- Bootstrap control flow of index.ts 39-90: the whole for-loop sits inside
one try/catch, so a failure of the per-template registration step `reg`
escapes the loop to the catch (which only logs), leaving the registrations
made so far and skipping every remaining template. -/
def loadAndRegisterPrompts (reg : Template → List Str → Except Str (List Str)) :
    List Template → List Str → List Str
  | [], st => st
  | t :: ts, st =>
    match reg t st with
    | .ok st2 => loadAndRegisterPrompts reg ts st2
    | .error _ => st

/-- A fallible registration step that fails exactly on one template name;
any such failure (the MCP SDK registry throws on a duplicate name, for
instance, and the store does not enforce name uniqueness) exercises the
claim that one failure is isolated. -/
def registerFailingOn (bad : Str) (t : Template) (st : List Str) :
    Except Str (List Str) :=
  if t.name = bad then .error bad else .ok (st ++ [t.name])

/-- Well-formed template shape used to state the amended round-trip claim: a
body is an alternation of literal characters and simple placeholders. -/
inductive Tpl where
  | nil : Tpl
  | lit : Char → Tpl → Tpl
  | hole : Str → Tpl → Tpl
deriving DecidableEq, Repr

/-- The body text denoted by a template shape: a literal contributes its
character, a placeholder contributes its name between braces. -/
def Tpl.flatten : Tpl → Str
  | .nil => []
  | .lit c t => c :: t.flatten
  | .hole n t => '{' :: (n ++ '}' :: t.flatten)

/-- Well-formedness: literal characters are not opening braces, placeholder
names are nonempty and brace-free. -/
def Tpl.wf : Tpl → Prop
  | .nil => True
  | .lit c t => c ≠ '{' ∧ t.wf
  | .hole n t => n ≠ [] ∧ '{' ∉ n ∧ '}' ∉ n ∧ t.wf

/-- The placeholder names of a template shape, in order. -/
def Tpl.holeNames : Tpl → List Str
  | .nil => []
  | .lit _ t => t.holeNames
  | .hole n t => n :: t.holeNames

/-- Prepend a run of literal characters to a template shape. -/
def litApp : Str → Tpl → Tpl
  | [], t => t
  | c :: cs, t => .lit c (litApp cs t)

/-- Occurrence of `pat` as a contiguous substring of `s`. -/
def occursIn (pat s : Str) : Prop := ∃ u w, s = u ++ pat ++ w

theorem grabBody_cons {c : Char} (rest : Str) (hc : ¬ c = '}') :
    grabBody (c :: rest) = match grabBody rest with
      | some (b, rem) => some (c :: b, rem)
      | none => grabBody1 c rest := by
  simp only [grabBody, if_neg hc]

theorem grabBody_some : ∀ {s b rem : Str}, grabBody s = some (b, rem) →
    b ≠ [] ∧ '}' ∉ b ∧ s = b ++ '}' :: rem := by
  intro s
  induction s with
  | nil => intro b rem h; simp [grabBody] at h
  | cons c rest ih =>
    intro b rem h
    by_cases hc : c = '}'
    · simp only [grabBody, if_pos hc] at h
      exact absurd h (by simp)
    · rw [grabBody_cons rest hc] at h
      cases hgb : grabBody rest with
      | some pr =>
        obtain ⟨b2, rem2⟩ := pr
        rw [hgb] at h
        simp only [Option.some.injEq, Prod.mk.injEq] at h
        obtain ⟨hb, hrem⟩ := h
        obtain ⟨hne, hmem, hshape⟩ := ih hgb
        subst hb; subst hrem
        refine ⟨by simp, ?_, by simp [hshape]⟩
        simp only [List.mem_cons, not_or]
        exact ⟨fun hcc => hc hcc.symm, hmem⟩
      | none =>
        rw [hgb] at h
        cases rest with
        | nil => simp [grabBody1] at h
        | cons d rest2 =>
          by_cases hd : d = '}'
          · simp only [grabBody1, if_pos hd, Option.some.injEq, Prod.mk.injEq] at h
            obtain ⟨hb, hrem⟩ := h
            subst hb; subst hrem; subst hd
            refine ⟨by simp, ?_, by simp⟩
            simp only [List.mem_singleton]
            exact fun hcc => hc hcc.symm
          · simp only [grabBody1, if_neg hd] at h
            exact absurd h (by simp)

theorem grabBody_append {n t : Str} (hne : n ≠ []) (hmem : '}' ∉ n) :
    grabBody (n ++ '}' :: t) = some (n, t) := by
  induction n with
  | nil => exact absurd rfl hne
  | cons c n2 ih =>
    have hc : ¬ c = '}' := by
      intro h; exact hmem (by simp [h])
    rcases n2 with _ | ⟨d, n3⟩
    · have h1 : grabBody ('}' :: t) = none := by
        simp [grabBody]
      show grabBody (c :: '}' :: t) = some ([c], t)
      rw [grabBody_cons _ hc, h1]
      simp [grabBody1]
    · have h2 : grabBody ((d :: n3) ++ '}' :: t) = some (d :: n3, t) := by
        apply ih (by simp)
        intro hmm
        exact hmem (List.mem_cons_of_mem _ hmm)
      rw [List.cons_append, grabBody_cons _ hc, h2]
theorem extractScanF_cons_match {c : Char} {rest b rem : Str} (f : Nat)
    (hc : c = '{') (hgb : grabBody rest = some (b, rem)) :
    extractScanF (f + 1) (c :: rest) = b :: extractScanF f rem := by
  simp only [extractScanF, if_pos hc, hgb]

theorem extractScanF_cons_nomatch {c : Char} {rest : Str} (f : Nat)
    (h : ¬ c = '{' ∨ grabBody rest = none) :
    extractScanF (f + 1) (c :: rest) = extractScanF f rest := by
  by_cases hc : c = '{'
  · rcases h with h | h
    · exact absurd hc h
    · simp only [extractScanF, if_pos hc, h]
  · simp only [extractScanF, if_neg hc]

theorem extractScanF_mem : ∀ {f : Nat} {s x : Str}, x ∈ extractScanF f s →
    x ≠ [] ∧ '}' ∉ x := by
  intro f
  induction f with
  | zero => intro s x h; simp [extractScanF] at h
  | succ f ih =>
    intro s x h
    match s with
    | [] => simp [extractScanF] at h
    | c :: rest =>
      by_cases hc : c = '{'
      · cases hgb : grabBody rest with
        | some pr =>
          obtain ⟨b, rem⟩ := pr
          rw [extractScanF_cons_match f hc hgb] at h
          rcases List.mem_cons.1 h with h | h
          · subst h
            obtain ⟨h1, h2, _⟩ := grabBody_some hgb
            exact ⟨h1, h2⟩
          · exact ih h
        | none =>
          rw [extractScanF_cons_nomatch f (Or.inr hgb)] at h
          exact ih h
      · rw [extractScanF_cons_nomatch f (Or.inl hc)] at h
        exact ih h

theorem dedupSeen_subset : ∀ {l seen : List Str} {x : Str},
    x ∈ dedupSeen seen l → x ∈ l := by
  intro l
  induction l with
  | nil => intro seen x h; simp [dedupSeen] at h
  | cons y ys ih =>
    intro seen x h
    by_cases hy : y ∈ seen
    · simp only [dedupSeen, if_pos hy] at h
      exact List.mem_cons_of_mem _ (ih h)
    · simp only [dedupSeen, if_neg hy] at h
      rcases List.mem_cons.1 h with h | h
      · simp [h]
      · exact List.mem_cons_of_mem _ (ih h)

theorem dedupSeen_congr : ∀ {l s1 s2 : List Str},
    (∀ y, y ∈ s1 ↔ y ∈ s2) → dedupSeen s1 l = dedupSeen s2 l := by
  intro l
  induction l with
  | nil => intro s1 s2 _; rfl
  | cons y ys ih =>
    intro s1 s2 hiff
    by_cases hy : y ∈ s1
    · simp only [dedupSeen, if_pos hy, if_pos ((hiff y).1 hy)]
      exact ih hiff
    · simp only [dedupSeen, if_neg hy, if_neg (fun hz => hy ((hiff y).2 hz))]
      refine congrArg _ (ih ?_)
      intro z
      simp only [List.mem_cons]
      exact or_congr Iff.rfl (hiff z)

theorem foldl_insertUnique : ∀ (l acc : List Str),
    l.foldl insertUnique acc = acc ++ dedupSeen acc l := by
  intro l
  induction l with
  | nil => intro acc; simp [dedupSeen]
  | cons x xs ih =>
    intro acc
    rw [List.foldl_cons]
    by_cases hx : x ∈ acc
    · rw [insertUnique, if_pos hx]
      simp only [dedupSeen, if_pos hx]
      exact ih acc
    · rw [insertUnique, if_neg hx]
      simp only [dedupSeen, if_neg hx]
      rw [ih (acc ++ [x]), List.append_assoc, List.singleton_append]
      refine congrArg _ (congrArg _ (dedupSeen_congr ?_))
      intro z
      simp [List.mem_append, or_comm]

theorem extractInputs_eq_dedup (s : Str) :
    extractInputs s = dedupKeepFirst (extractScan s) := by
  rw [extractInputs, dedupKeepFirst, foldl_insertUnique, List.nil_append]

theorem extract_names_ok {s x : Str} (h : x ∈ extractInputs s) :
    x ≠ [] ∧ '}' ∉ x := by
  rw [extractInputs_eq_dedup, dedupKeepFirst] at h
  exact extractScanF_mem (dedupSeen_subset h)
theorem dropPre_length : ∀ {ps s r : Str}, dropPre ps s = some r →
    r.length ≤ s.length := by
  intro ps
  induction ps with
  | nil =>
    intro s r h
    simp only [dropPre, Option.some.injEq] at h
    subst h; exact le_rfl
  | cons c cs ih =>
    intro s r h
    cases s with
    | nil => exact absurd h (by simp [dropPre])
    | cons d ds =>
      by_cases hcd : c = d
      · simp only [dropPre, if_pos hcd] at h
        exact Nat.le_succ_of_le (ih h)
      · simp only [dropPre, if_neg hcd] at h
        exact absurd h (by simp)

theorem dropPre_self : ∀ (ps r : Str), dropPre ps (ps ++ r) = some r := by
  intro ps
  induction ps with
  | nil => intro r; rfl
  | cons c cs ih =>
    intro r
    simp only [List.cons_append, dropPre, if_pos rfl]
    exact ih r

theorem dropPre_eq_append : ∀ {ps s r : Str}, dropPre ps s = some r →
    s = ps ++ r := by
  intro ps
  induction ps with
  | nil =>
    intro s r h
    simp only [dropPre, Option.some.injEq] at h
    simp [h]
  | cons c cs ih =>
    intro s r h
    cases s with
    | nil => exact absurd h (by simp [dropPre])
    | cons d ds =>
      by_cases hcd : c = d
      · simp only [dropPre, if_pos hcd] at h
        subst hcd
        simp [ih h]
      · simp only [dropPre, if_neg hcd] at h
        exact absurd h (by simp)

theorem replF_congr : ∀ {f1 f2 : Nat} {s : Str} (p : Char) (ps v : Str),
    s.length ≤ f1 → s.length ≤ f2 → replF p ps v f1 s = replF p ps v f2 s := by
  intro f1
  induction f1 with
  | zero =>
    intro f2 s p ps v h1 _
    have hs : s = [] := List.eq_nil_of_length_eq_zero (Nat.le_zero.1 h1)
    subst hs
    cases f2 <;> rfl
  | succ f1 ih =>
    intro f2 s p ps v h1 h2
    cases s with
    | nil => cases f2 <;> rfl
    | cons c rest =>
      have hrest1 : rest.length ≤ f1 := by
        simp only [List.length_cons] at h1; omega
      cases f2 with
      | zero => simp at h2
      | succ f2 =>
        have hrest2 : rest.length ≤ f2 := by
          simp only [List.length_cons] at h2; omega
        cases hm : (if c = p then dropPre ps rest else none) with
        | some rem =>
          have hlen : rem.length ≤ rest.length := by
            by_cases hc : c = p
            · rw [if_pos hc] at hm; exact dropPre_length hm
            · rw [if_neg hc] at hm; exact absurd hm (by simp)
          simp only [replF, hm]
          exact congrArg _ (ih p ps v (le_trans hlen hrest1) (le_trans hlen hrest2))
        | none =>
          simp only [replF, hm]
          exact congrArg _ (ih p ps v hrest1 hrest2)

theorem repl_nil (p : Char) (ps v : Str) : repl p ps v [] = [] := rfl

theorem repl_cons_none {c p : Char} {ps rest : Str} (v : Str)
    (h : (if c = p then dropPre ps rest else none) = none) :
    repl p ps v (c :: rest) = c :: repl p ps v rest := by
  show replF p ps v (rest.length + 1) (c :: rest) = _
  simp only [replF, h]
  rfl

theorem repl_cons_some {c p : Char} {ps rest rem : Str} (v : Str)
    (hc : c = p) (h : dropPre ps rest = some rem) :
    repl p ps v (c :: rest) = v ++ repl p ps v rem := by
  have hm : (if c = p then dropPre ps rest else none) = some rem := by
    rw [if_pos hc, h]
  show replF p ps v (rest.length + 1) (c :: rest) = _
  simp only [replF, hm]
  exact congrArg _ (replF_congr p ps v (dropPre_length h) le_rfl)

theorem jsSubst_id : ∀ {v : Str} (m b a : Str), '$' ∉ v → jsSubst v m b a = v := by
  intro v
  induction v with
  | nil => intro m b a _; rfl
  | cons c rest ih =>
    intro m b a hd
    have hc : ¬ c = '$' := fun h => hd (by simp [h])
    cases rest with
    | nil => rfl
    | cons d rest2 =>
      simp only [jsSubst, if_neg hc]
      exact congrArg _ (ih m b a fun h => hd (List.mem_cons_of_mem _ h))

theorem jsReplaceF_eq_replF : ∀ {f : Nat} {pre s : Str} (p : Char) (ps val : Str),
    '$' ∉ val → jsReplaceF p ps val f pre s = replF p ps val f s := by
  intro f
  induction f with
  | zero => intro pre s p ps val _; rfl
  | succ f ih =>
    intro pre s p ps val hval
    cases s with
    | nil => rfl
    | cons c rest =>
      cases hm : (if c = p then dropPre ps rest else none) with
      | some rem =>
        simp only [jsReplaceF, replF, hm]
        rw [jsSubst_id _ _ _ hval, ih p ps val hval]
      | none =>
        simp only [jsReplaceF, replF, hm]
        exact congrArg _ (ih p ps val hval)

theorem jsReplace_eq_repl {p : Char} {ps val s : Str} (hval : '$' ∉ val) :
    jsReplace (p :: ps) val s = repl p ps val s := by
  show jsReplaceF p ps val s.length [] s = replF p ps val s.length s
  exact jsReplaceF_eq_replF p ps val hval
theorem litApp_flatten : ∀ (v : Str) (t : Tpl), (litApp v t).flatten = v ++ t.flatten := by
  intro v
  induction v with
  | nil => intro t; rfl
  | cons c cs ih =>
    intro t
    simp only [litApp, Tpl.flatten, ih, List.cons_append]

theorem litApp_wf : ∀ {v : Str} {t : Tpl}, '{' ∉ v → t.wf → (litApp v t).wf := by
  intro v
  induction v with
  | nil => intro t _ ht; exact ht
  | cons c cs ih =>
    intro t hv ht
    exact ⟨fun h => hv (by simp [h]), ih (fun h => hv (List.mem_cons_of_mem _ h)) ht⟩

theorem litApp_holeNames : ∀ (v : Str) (t : Tpl),
    (litApp v t).holeNames = t.holeNames := by
  intro v
  induction v with
  | nil => intro t; rfl
  | cons c cs ih => intro t; simp only [litApp, Tpl.holeNames, ih]

theorem repl_pass {ps v : Str} : ∀ {w r : Str}, '{' ∉ w →
    repl '{' ps v (w ++ r) = w ++ repl '{' ps v r := by
  intro w
  induction w with
  | nil => intro r _; rfl
  | cons c cs ih =>
    intro r hw
    have hc : ¬ c = '{' := fun h => hw (by simp [h])
    rw [List.cons_append, repl_cons_none v (by rw [if_neg hc]),
      ih (fun h => hw (List.mem_cons_of_mem _ h))]
    simp

theorem dropPre_hole_none : ∀ {k n x : Str}, '}' ∉ k → '}' ∉ n → k ≠ n →
    dropPre (k ++ ['}']) (n ++ '}' :: x) = none := by
  intro k
  induction k with
  | nil =>
    intro n x hk hn hne
    cases n with
    | nil => exact absurd rfl hne
    | cons d n3 =>
      have hd : ¬ ('}' : Char) = d := fun h => hn (by simp [← h])
      simp only [List.nil_append, List.cons_append, dropPre, if_neg hd]
  | cons c k3 ih =>
    intro n x hk hn hne
    cases n with
    | nil =>
      have hc : ¬ c = '}' := fun h => hk (by simp [h])
      simp only [List.nil_append, List.cons_append, dropPre, if_neg hc]
    | cons d n3 =>
      by_cases hcd : c = d
      · subst hcd
        have hne2 : k3 ≠ n3 := fun h => hne (by rw [h])
        simp only [List.cons_append, dropPre, if_pos rfl]
        exact ih (fun h => hk (List.mem_cons_of_mem _ h))
          (fun h => hn (List.mem_cons_of_mem _ h)) hne2
      · simp only [List.cons_append, dropPre, if_neg hcd]

theorem repl_flatten : ∀ (tp : Tpl) {k v : Str}, tp.wf → '{' ∉ v → '{' ∉ k →
    '}' ∉ k →
    ∃ tp2 : Tpl, repl '{' (k ++ ['}']) v tp.flatten = tp2.flatten ∧ tp2.wf ∧
      (∀ q, q ∈ tp2.holeNames → q ∈ tp.holeNames) ∧ k ∉ tp2.holeNames := by
  intro tp
  induction tp with
  | nil =>
    intro k v _ _ _ _
    exact ⟨.nil, repl_nil _ _ _, trivial, fun q hq => hq, by simp [Tpl.holeNames]⟩
  | lit c t ih =>
    intro k v hwf hv hk1 hk2
    obtain ⟨hc, hwt⟩ := hwf
    obtain ⟨tp2, heq, hwf2, hsub, hk⟩ := ih hwt hv hk1 hk2
    refine ⟨.lit c tp2, ?_, ⟨hc, hwf2⟩, fun q hq => hsub q hq, hk⟩
    show repl '{' (k ++ ['}']) v (c :: t.flatten) = c :: tp2.flatten
    rw [repl_cons_none v (by rw [if_neg hc]), heq]
  | hole n t ih =>
    intro k v hwf hv hk1 hk2
    obtain ⟨hne, hn1, hn2, hwt⟩ := hwf
    obtain ⟨tp2, heq, hwf2, hsub, hk⟩ := ih hwt hv hk1 hk2
    by_cases hkn : k = n
    · subst hkn
      have hdrop : dropPre (k ++ ['}']) (k ++ '}' :: t.flatten) = some t.flatten := by
        have hsh : k ++ '}' :: t.flatten = (k ++ ['}']) ++ t.flatten := by simp
        rw [hsh]; exact dropPre_self _ _
      refine ⟨litApp v tp2, ?_, litApp_wf hv hwf2, ?_, ?_⟩
      · show repl '{' (k ++ ['}']) v ('{' :: (k ++ '}' :: t.flatten)) = _
        rw [repl_cons_some v rfl hdrop, heq, litApp_flatten]
      · intro q hq
        rw [litApp_holeNames] at hq
        exact List.mem_cons_of_mem _ (hsub q hq)
      · rw [litApp_holeNames]; exact hk
    · have hdrop : dropPre (k ++ ['}']) (n ++ '}' :: t.flatten) = none :=
        dropPre_hole_none hk2 hn2 hkn
      refine ⟨.hole n tp2, ?_, ⟨hne, hn1, hn2, hwf2⟩, ?_, ?_⟩
      · show repl '{' (k ++ ['}']) v ('{' :: (n ++ '}' :: t.flatten)) =
          '{' :: (n ++ '}' :: tp2.flatten)
        rw [repl_cons_none v (by rw [if_pos rfl, hdrop])]
        refine congrArg _ ?_
        rw [repl_pass hn1]
        refine congrArg _ ?_
        rw [repl_cons_none v (by rw [if_neg (by decide : ¬ ('}' : Char) = '{')]), heq]
      · intro q hq
        rcases List.mem_cons.1 hq with h | h
        · exact List.mem_cons.2 (Or.inl h)
        · exact List.mem_cons_of_mem _ (hsub q h)
      · intro hmem
        rcases List.mem_cons.1 hmem with h | h
        · exact hkn h
        · exact absurd h hk
theorem occ_not_nil {c : Char} {l : Str} : ¬ occursIn (c :: l) [] := by
  rintro ⟨u, w, h⟩
  have hlen := congrArg List.length h
  simp [List.length_append] at hlen
  omega

theorem occ_cons {pat : Str} {c : Char} {s : Str} :
    occursIn pat (c :: s) ↔ (∃ w, c :: s = pat ++ w) ∨ occursIn pat s := by
  constructor
  · rintro ⟨u, w, h⟩
    cases u with
    | nil => exact Or.inl ⟨w, by simpa using h⟩
    | cons d u2 =>
      right
      rw [List.cons_append, List.cons_append] at h
      injection h with h1 h2
      exact ⟨u2, w, h2⟩
  · rintro (⟨w, h⟩ | ⟨u, w, h⟩)
    · exact ⟨[], w, by simpa using h⟩
    · exact ⟨c :: u, w, by rw [h]; simp⟩

theorem occ_drop_lit {q : Str} : ∀ {a b : Str}, '{' ∉ a →
    occursIn ('{' :: q) (a ++ b) → occursIn ('{' :: q) b := by
  intro a
  induction a with
  | nil => intro b _ h; simpa using h
  | cons c cs ih =>
    intro b ha h
    have hc : ¬ c = '{' := fun hcc => ha (by simp [hcc])
    rw [List.cons_append] at h
    rcases occ_cons.1 h with ⟨w, hw⟩ | h2
    · rw [List.cons_append] at hw
      injection hw with h1 _
      exact absurd h1 hc
    · exact ih (fun hm => ha (List.mem_cons_of_mem _ hm)) h2

theorem brace_split : ∀ {q n w w2 : Str}, '}' ∉ q → '}' ∉ n →
    q ++ '}' :: w = n ++ '}' :: w2 → q = n ∧ w = w2 := by
  intro q
  induction q with
  | nil =>
    intro n w w2 _ hn h
    cases n with
    | nil => simpa using h
    | cons d n3 =>
      rw [List.nil_append, List.cons_append] at h
      injection h with h1 h2
      exfalso
      apply hn
      rw [← h1]
      exact List.mem_cons_self _ _
  | cons c q3 ih =>
    intro n w w2 hq hn h
    cases n with
    | nil =>
      rw [List.nil_append, List.cons_append] at h
      injection h with h1 h2
      exfalso
      apply hq
      rw [h1]
      exact List.mem_cons_self _ _
    | cons d n3 =>
      rw [List.cons_append, List.cons_append] at h
      injection h with h1 h2
      obtain ⟨hq3, hw⟩ := ih (fun hm => hq (List.mem_cons_of_mem _ hm))
        (fun hm => hn (List.mem_cons_of_mem _ hm)) h2
      exact ⟨by rw [h1, hq3], hw⟩

theorem occ_flatten_names : ∀ (tp : Tpl) {q : Str}, tp.wf → '}' ∉ q →
    occursIn ('{' :: (q ++ ['}'])) tp.flatten → q ∈ tp.holeNames := by
  intro tp
  induction tp with
  | nil => intro q _ _ h; exact absurd h occ_not_nil
  | lit c t ih =>
    intro q hwf hq h
    obtain ⟨hc, hwt⟩ := hwf
    rcases occ_cons.1 h with ⟨w, hw⟩ | h2
    · rw [List.cons_append] at hw
      injection hw with h1 _
      exact absurd h1 hc
    · exact ih hwt hq h2
  | hole n t ih =>
    intro q hwf hq h
    obtain ⟨hne, hn1, hn2, hwt⟩ := hwf
    rcases occ_cons.1 h with ⟨w, hw⟩ | h2
    · rw [List.cons_append] at hw
      injection hw with _ htail
      have h3 : q ++ '}' :: w = n ++ '}' :: t.flatten := by
        rw [htail]; simp
      obtain ⟨hqn, _⟩ := brace_split hq hn2 h3
      exact List.mem_cons.2 (Or.inl hqn)
    · have h3 := occ_drop_lit hn1 h2
      rcases occ_cons.1 h3 with ⟨w, hw⟩ | h4
      · rw [List.cons_append] at hw
        injection hw with h1 _
        exact absurd h1 (by decide)
      · exact List.mem_cons_of_mem _ (ih hwt hq h4)

theorem renderAll_grammar : ∀ (vs : List (Str × Str)) (tp : Tpl), tp.wf →
    (∀ kv ∈ vs, '{' ∉ kv.2 ∧ '$' ∉ kv.2 ∧ '{' ∉ kv.1 ∧ '}' ∉ kv.1) →
    ∃ tp2 : Tpl, renderAll tp.flatten vs = tp2.flatten ∧ tp2.wf ∧
      (∀ q, q ∈ tp2.holeNames → q ∈ tp.holeNames) ∧
      (∀ kv ∈ vs, kv.1 ∉ tp2.holeNames) := by
  intro vs
  induction vs with
  | nil =>
    intro tp hwf _
    exact ⟨tp, rfl, hwf, fun q hq => hq, by simp⟩
  | cons kv vs2 ih =>
    intro tp hwf hvals
    obtain ⟨hv1, hv2, hk1, hk2⟩ := hvals kv (List.mem_cons_self _ _)
    obtain ⟨tp1, heq1, hwf1, hsub1, hk⟩ := repl_flatten tp hwf hv1 hk1 hk2
    obtain ⟨tp2, heq2, hwf2, hsub2, hvs⟩ := ih tp1 hwf1
      (fun kv2 h2 => hvals kv2 (List.mem_cons_of_mem _ h2))
    have hstep : renderAll tp.flatten (kv :: vs2) =
        renderAll (jsReplace ('{' :: (kv.1 ++ ['}'])) kv.2 tp.flatten) vs2 := rfl
    have hrepl : jsReplace ('{' :: (kv.1 ++ ['}'])) kv.2 tp.flatten =
        repl '{' (kv.1 ++ ['}']) kv.2 tp.flatten := jsReplace_eq_repl hv2
    refine ⟨tp2, ?_, hwf2, fun q hq => hsub1 q (hsub2 q hq), ?_⟩
    · rw [hstep, hrepl, heq1, heq2]
    · intro kv2 h2
      rcases List.mem_cons.1 h2 with h3 | h3
      · subst h3
        exact fun hmem => hk (hsub2 _ hmem)
      · exact hvs kv2 h3
theorem falsy_eq_true_iff {o : Option Str} :
    falsy o = true ↔ o = none ∨ o = some [] := by
  cases o with
  | none => simp [falsy]
  | some v => simp [falsy]

theorem lookupVal_falsy_mem {vs : List (Str × Str)} {p : Str}
    (h : falsy (lookupVal vs p) = false) : ∃ kv ∈ vs, kv.1 = p := by
  unfold lookupVal at h
  cases hf : vs.find? (fun kv => decide (kv.1 = p)) with
  | none => rw [hf] at h; simp [falsy] at h
  | some kv =>
    refine ⟨kv, List.mem_of_find?_eq_some hf, ?_⟩
    have hp := List.find?_some hf
    simpa using hp

theorem regexLiteralKey_no_braces {k : Str} (h : regexLiteralKey k = true) :
    '{' ∉ k ∧ '}' ∉ k := by
  rw [regexLiteralKey, List.all_eq_true] at h
  exact ⟨fun hm => absurd (h _ hm) (by decide),
    fun hm => absurd (h _ hm) (by decide)⟩

theorem renderAllE_ok : ∀ (vs : List (Str × Str)) (body : Str),
    (∀ kv ∈ vs, regexLiteralKey kv.1 = true) →
    renderAllE body vs = .ok (renderAll body vs) := by
  intro vs
  induction vs with
  | nil => intro body _; rfl
  | cons kv rest ih =>
    intro body h
    have hk := h kv (List.mem_cons_self _ _)
    simp only [renderAllE, if_pos hk]
    exact ih _ (fun kv2 h2 => h kv2 (List.mem_cons_of_mem _ h2))

theorem dedupSeen_not_mem_seen : ∀ {l seen : List Str} {x : Str},
    x ∈ dedupSeen seen l → x ∉ seen := by
  intro l
  induction l with
  | nil => intro seen x h; simp [dedupSeen] at h
  | cons y ys ih =>
    intro seen x h
    by_cases hy : y ∈ seen
    · simp only [dedupSeen, if_pos hy] at h
      exact ih h
    · simp only [dedupSeen, if_neg hy] at h
      rcases List.mem_cons.1 h with h | h
      · subst h; exact hy
      · intro hx
        exact ih h (List.mem_cons_of_mem _ hx)

theorem dedupSeen_nodup : ∀ (l seen : List Str), (dedupSeen seen l).Nodup := by
  intro l
  induction l with
  | nil => intro seen; simp [dedupSeen]
  | cons y ys ih =>
    intro seen
    by_cases hy : y ∈ seen
    · simp only [dedupSeen, if_pos hy]
      exact ih seen
    · simp only [dedupSeen, if_neg hy]
      refine List.nodup_cons.2 ⟨?_, ih (y :: seen)⟩
      intro hmem
      exact dedupSeen_not_mem_seen hmem (List.mem_cons_self _ _)

theorem extractInputs_nodup (s : Str) : (extractInputs s).Nodup := by
  rw [extractInputs_eq_dedup, dedupKeepFirst]
  exact dedupSeen_nodup _ _

theorem extractInputs_mem_scan {s x : Str} (h : x ∈ extractInputs s) :
    x ∈ extractScan s := by
  rw [extractInputs_eq_dedup, dedupKeepFirst] at h
  exact dedupSeen_subset h
/-- The empty store. -/
def emptyDb : Db := ⟨[], []⟩

/-- A stored template named t with body consisting of one placeholder a, and
its single extracted input row, as produced by a save. -/
def dbA : Db :=
  ⟨[⟨['i'], ['t'], none, ['{', 'a', '}'], ['0'], ['0']⟩],
   [⟨['i'], ['a'], none, true⟩]⟩

/-- A stored template whose updatedAt column holds its creation time t0. -/
def dbB : Db := ⟨[⟨['i'], ['n'], none, ['b'], ['t', '0'], ['t', '0']⟩], []⟩

/-- A stored template with two placeholders x and y and their input rows. -/
def tplC : Template := ⟨['i'], ['n'], none, ['{', 'x', '}', '{', 'y', '}'], ['0'], ['0']⟩

/-- The store holding `tplC` and its two extracted input rows. -/
def dbC : Db :=
  ⟨[tplC], [⟨['i'], ['x'], none, true⟩, ⟨['i'], ['y'], none, true⟩]⟩

/-- A stored template with a single placeholder x, used to exercise the
save/update/delete paths at concrete inputs. -/
def tplD : Template := ⟨['i'], ['n'], none, ['{', 'x', '}'], ['0'], ['0']⟩

/-- The store holding `tplD` and its extracted input row. -/
def dbD : Db := ⟨[tplD], [⟨['i'], ['x'], none, true⟩]⟩

/-- A persisted template for the bootstrap scenarios, named `nm`. -/
def bootTpl (nm : Str) : Template := ⟨nm, nm, none, ['x'], ['0'], ['0']⟩

/-- C1: the claim states that rendering inserts each supplied value verbatim
(never reinterpreted as a replacement pattern) and that a substituted value
is never scanned again in the same pass.  The code does neither: with body
consisting of the placeholder a, values assigning a the text brace-b-brace
and b the text X, the sequential replace loop rescans the value inserted for
a and produces X (the claim's own example says it must stay as the literal
brace-b-brace text); and the value dollar-ampersand is reinterpreted by
String.replace as the matched text, reproducing the a placeholder instead of
being inserted verbatim. -/
theorem c1_render_reinterprets_values :
    get_prompt_by_name dbA ['t'] [(['a'], ['{', 'b', '}']), (['b'], ['X'])]
      = .rendered ['X'] ∧
    get_prompt_by_name dbA ['t'] [(['a'], ['$', '&'])]
      = .rendered ['{', 'a', '}'] := by
  decide

/-- C2: the claim states that a failure while registering one template still
lets every other well-formed template register.  The code wraps the whole
for-loop in a single try/catch, so with three persisted templates a, b, c
and a registration step failing on b, the loop aborts at b: only a is
registered and c — perfectly well-formed — is skipped. -/
theorem c2_bootstrap_abort_skips_rest :
    loadAndRegisterPrompts (registerFailingOn ['b'])
      [bootTpl ['a'], bootTpl ['b'], bootTpl ['c']] [] = [['a']] ∧
    ['c'] ∉ loadAndRegisterPrompts (registerFailingOn ['b'])
      [bootTpl ['a'], bootTpl ['b'], bootTpl ['c']] [] := by
  decide

/-- C6: the claim states that every successful update refreshes updatedAt.
The update writes only the provided name/description/template fields and the
schema has no on-update trigger, so after a successful description update
the row still carries its creation-time updatedAt value t0. -/
theorem c6_update_keeps_old_updatedAt :
    update_prompt_template dbB ['i'] none (some ['d']) none =
      (⟨[⟨['i'], ['n'], some ['d'], ['b'], ['t', '0'], ['t', '0']⟩], []⟩,
       .ok ⟨['i'], ['n'], some ['d'], ['b'], ['t', '0'], ['t', '0']⟩) := by
  decide

/-- C3 (counterexample): with body consisting of the placeholder a and the
values mapping supplying the nonempty text brace-a-brace for a (so every
name in P is covered), get_prompt_by_name returns a rendered text that still
contains the a placeholder. -/
theorem c3_roundtrip_counterexample :
    extractInputs ['{', 'a', '}'] = [['a']] ∧
    get_prompt_by_name dbA ['t'] [(['a'], ['{', 'a', '}'])]
      = .rendered ['{', 'a', '}'] ∧
    occursIn ('{' :: (['a'] ++ ['}'])) ['{', 'a', '}'] :=
  ⟨by decide, by decide, ⟨[], [], by decide⟩⟩
/-- C3 (amended): for bodies that are well-formed templates (literal
characters that are not opening braces, alternating with simple placeholders
whose names are nonempty and brace-free), and values mappings whose keys are
regex-literal (free of regex syntax characters, so the raw interpolated key
builds a valid pattern matching its own literal braced spelling) and whose
value strings contain no opening brace and no dollar sign, supplying a
non-falsy (present and nonempty) value for every extracted placeholder name:
get_prompt_by_name on the freshly saved template returns rendered text with
no remaining occurrence of any extracted placeholder.  Unrestricted, the
claim is false (see the counterexample): a supplied value can itself contain
or recreate placeholder text, a metacharacter key like a-star never matches
its own braced spelling, and an invalid key like a lone parenthesis throws
into the error response. -/
theorem c3_amended_roundtrip (tp : Tpl) (tid tname now : Str) (desc : Option Str)
    (vs : List (Str × Str))
    (hwf : tp.wf)
    (hvals : ∀ kv ∈ vs, '{' ∉ kv.2 ∧ '$' ∉ kv.2 ∧ regexLiteralKey kv.1 = true)
    (hcover : ∀ p ∈ extractInputs tp.flatten, falsy (lookupVal vs p) = false) :
    ∃ r, get_prompt_by_name
        (save_prompt_template emptyDb now tid tname desc tp.flatten) tname vs
        = .rendered r ∧
      ∀ p ∈ extractInputs tp.flatten, ¬ occursIn ('{' :: (p ++ ['}'])) r := by
  have hvals2 : ∀ kv ∈ vs, '{' ∉ kv.2 ∧ '$' ∉ kv.2 ∧ '{' ∉ kv.1 ∧ '}' ∉ kv.1 := by
    intro kv hkv
    obtain ⟨h1, h2, h3⟩ := hvals kv hkv
    obtain ⟨h4, h5⟩ := regexLiteralKey_no_braces h3
    exact ⟨h1, h2, h4, h5⟩
  have hok : renderAllE tp.flatten vs = .ok (renderAll tp.flatten vs) :=
    renderAllE_ok vs tp.flatten (fun kv hkv => (hvals kv hkv).2.2)
  have hfind : (save_prompt_template emptyDb now tid tname desc tp.flatten).templates.find?
      (fun u => decide (u.name = tname)) =
      some ⟨tid, tname, desc, tp.flatten, now, now⟩ := by
    apply List.find?_cons_of_pos
    simp
  have hrows : rowsFor (save_prompt_template emptyDb now tid tname desc tp.flatten) tid =
      (extractInputs tp.flatten).map (fun n => (⟨tid, n, none, true⟩ : InputRow)) := by
    have h0 : rowsFor (save_prompt_template emptyDb now tid tname desc tp.flatten) tid =
        ((extractInputs tp.flatten).map
          (fun n => (⟨tid, n, none, true⟩ : InputRow))).filter
          (fun r => decide (r.templateId = tid)) := rfl
    rw [h0, List.filter_eq_self]
    intro r hr
    obtain ⟨n, _, rfl⟩ := List.mem_map.1 hr
    simp
  have hmiss : missingOf (rowsFor
      (save_prompt_template emptyDb now tid tname desc tp.flatten) tid) vs = [] := by
    rw [hrows]
    unfold missingOf
    rw [List.map_eq_nil_iff, List.filter_eq_nil_iff]
    intro r hr
    obtain ⟨n, hn, rfl⟩ := List.mem_map.1 hr
    simp [hcover n hn]
  refine ⟨renderAll tp.flatten vs, ?_, ?_⟩
  · simp only [get_prompt_by_name, hfind, hok]
    rw [if_pos hmiss]
  · intro p hp
    obtain ⟨hpne, hpbrace⟩ := extract_names_ok hp
    obtain ⟨kv, hkv, hkvp⟩ := lookupVal_falsy_mem (hcover p hp)
    obtain ⟨tp2, heq, hwf2, hsub, hvs⟩ := renderAll_grammar vs tp hwf hvals2
    rw [heq]
    intro hocc
    have hmem := occ_flatten_names tp2 hwf2 hpbrace hocc
    rw [← hkvp] at hmem
    exact hvs kv hkv hmem
/-- C3 (amended) witness: the single-placeholder body with the value V for
a renders with no placeholder left. -/
theorem c3_amended_roundtrip_witness :
    (Tpl.hole ['a'] .nil).wf ∧
    (∃ r, get_prompt_by_name
        (save_prompt_template emptyDb ['0'] ['i'] ['t'] none
          (Tpl.hole ['a'] .nil).flatten) ['t'] [(['a'], ['V'])]
        = .rendered r ∧
      ∀ p ∈ extractInputs (Tpl.hole ['a'] .nil).flatten,
        ¬ occursIn ('{' :: (p ++ ['}'])) r) :=
  ⟨⟨by decide, by decide, by decide, trivial⟩,
   c3_amended_roundtrip (Tpl.hole ['a'] .nil) ['i'] ['t'] ['0'] none
     [(['a'], ['V'])]
     ⟨by decide, by decide, by decide, trivial⟩
     (by decide)
     (by decide)⟩

/-- C4 (counterexample): with the stored two-placeholder template and a
values mapping whose only key is an opening parenthesis — an invalid regex
fragment once interpolated into the RegExp constructor — the
missing-required set is nonempty, yet the handler does not return the
non-error diagnostic: the constructor throws inside the render loop, which
runs before the missing check, and the catch produces an isError response. -/
theorem c4_regex_key_counterexample :
    missingOf (rowsFor dbC tplC.id) [(['('], ['v'])] = [['x'], ['y']] ∧
    get_prompt_by_name dbC ['n'] [(['('], ['v'])] = .renderError ∧
    (get_prompt_by_name dbC ['n'] [(['('], ['v'])]).isError = true := by
  decide

/-- C4 (amended): for values mappings whose keys are regex-literal (so the
render loop, which runs before the missing check, cannot throw), the
missing-required names computed by get_prompt_by_name are exactly the names
of the template's required input rows whose supplied value is absent or
empty, and when that list is nonempty the response is the non-error
diagnostic carrying the missing names, the raw unrendered body and the full
list of known input names.  For an unrestricted mapping the claim fails: an
invalid-regex key makes the handler return an error response instead of the
diagnostic (see the counterexample). -/
theorem c4_missing_required (db : Db) (nm : Str) (vs : List (Str × Str))
    (t : Template)
    (hfind : db.templates.find? (fun u => decide (u.name = nm)) = some t)
    (hkeys : ∀ kv ∈ vs, regexLiteralKey kv.1 = true) :
    (∀ n, n ∈ missingOf (rowsFor db t.id) vs ↔
      ∃ r, r ∈ rowsFor db t.id ∧ r.required = true ∧ r.name = n ∧
        (lookupVal vs n = none ∨ lookupVal vs n = some [])) ∧
    (missingOf (rowsFor db t.id) vs ≠ [] →
      get_prompt_by_name db nm vs =
        .missingReport (missingOf (rowsFor db t.id) vs) t.template
          ((rowsFor db t.id).map (fun r => r.name)) ∧
      (get_prompt_by_name db nm vs).isError = false) := by
  constructor
  · intro n
    unfold missingOf
    simp only [List.mem_map, List.mem_filter]
    constructor
    · rintro ⟨r, ⟨hr, hcond⟩, hname⟩
      rw [Bool.and_eq_true] at hcond
      refine ⟨r, hr, hcond.1, hname, ?_⟩
      rw [← hname]
      exact falsy_eq_true_iff.1 hcond.2
    · rintro ⟨r, hr, hreq, hname, hlk⟩
      refine ⟨r, ⟨hr, ?_⟩, hname⟩
      rw [Bool.and_eq_true]
      refine ⟨hreq, falsy_eq_true_iff.2 ?_⟩
      rw [hname]
      exact hlk
  · intro hne
    have hok : renderAllE t.template vs = .ok (renderAll t.template vs) :=
      renderAllE_ok vs t.template hkeys
    constructor
    · simp only [get_prompt_by_name, hfind, hok]
      rw [if_neg hne]
    · simp only [get_prompt_by_name, hfind, hok]
      rw [if_neg hne]
      rfl

/-- C4 (amended) witness: the two-placeholder template with only x supplied
(a regex-literal key) reports y missing via the diagnostic branch. -/
theorem c4_missing_required_witness :
    (dbC.templates.find? (fun u => decide (u.name = ['n'])) = some tplC) ∧
    (∀ kv ∈ [(['x'], ['v'])], regexLiteralKey kv.1 = true) ∧
    ((∀ n, n ∈ missingOf (rowsFor dbC tplC.id) [(['x'], ['v'])] ↔
      ∃ r, r ∈ rowsFor dbC tplC.id ∧ r.required = true ∧ r.name = n ∧
        (lookupVal [(['x'], ['v'])] n = none ∨
          lookupVal [(['x'], ['v'])] n = some [])) ∧
    (missingOf (rowsFor dbC tplC.id) [(['x'], ['v'])] ≠ [] →
      get_prompt_by_name dbC ['n'] [(['x'], ['v'])] =
        .missingReport (missingOf (rowsFor dbC tplC.id) [(['x'], ['v'])])
          tplC.template ((rowsFor dbC tplC.id).map (fun r => r.name)) ∧
      (get_prompt_by_name dbC ['n'] [(['x'], ['v'])]).isError = false)) :=
  ⟨by decide, by decide,
   c4_missing_required dbC ['n'] [(['x'], ['v'])] tplC (by decide) (by decide)⟩
/-- C5: after a successful save the input rows stored for the new template
are exactly the distinct placeholder names extracted from its body; after a
successful update that supplies a body they are exactly the names extracted
from the new body (the old rows are deleted first, not merged); an update
that supplies no body leaves the input rows unchanged. -/
theorem c5_inputs_track_body (db : Db) :
    (∀ now newId nm desc tpl, (∀ r ∈ db.inputs, r.templateId ≠ newId) →
      (rowsFor (save_prompt_template db now newId nm desc tpl) newId).map
        (fun r => r.name) = extractInputs tpl) ∧
    (∀ id nm ds newTpl t0,
      db.templates.find? (fun t => decide (t.id = id)) = some t0 →
      (rowsFor (update_prompt_template db id nm ds (some newTpl)).1 id).map
        (fun r => r.name) = extractInputs newTpl) ∧
    (∀ id nm ds t0,
      db.templates.find? (fun t => decide (t.id = id)) = some t0 →
      (update_prompt_template db id nm ds none).1.inputs = db.inputs) := by
  refine ⟨?_, ?_, ?_⟩
  · intro now newId nm desc tpl h
    have h0 : rowsFor (save_prompt_template db now newId nm desc tpl) newId =
        (db.inputs ++ (extractInputs tpl).map
          (fun n => (⟨newId, n, none, true⟩ : InputRow))).filter
          (fun r => decide (r.templateId = newId)) := rfl
    rw [h0, List.filter_append]
    have h1 : db.inputs.filter (fun r => decide (r.templateId = newId)) = [] := by
      rw [List.filter_eq_nil_iff]
      intro r hr
      simp [h r hr]
    have h2 : ((extractInputs tpl).map
        (fun n => (⟨newId, n, none, true⟩ : InputRow))).filter
        (fun r => decide (r.templateId = newId)) =
        (extractInputs tpl).map (fun n => ⟨newId, n, none, true⟩) := by
      rw [List.filter_eq_self]
      intro r hr
      obtain ⟨n, _, rfl⟩ := List.mem_map.1 hr
      simp
    rw [h1, h2, List.nil_append, List.map_map]
    show List.map (fun n => n) (extractInputs tpl) = extractInputs tpl
    simp
  · intro id nm ds newTpl t0 hfind
    have h0 : (update_prompt_template db id nm ds (some newTpl)).1.inputs =
        db.inputs.filter (fun r => decide (r.templateId ≠ id)) ++
          (extractInputs newTpl).map (fun n => (⟨id, n, none, true⟩ : InputRow)) := by
      simp only [update_prompt_template, hfind]
    have h1 : rowsFor (update_prompt_template db id nm ds (some newTpl)).1 id =
        ((db.inputs.filter (fun r => decide (r.templateId ≠ id))) ++
          (extractInputs newTpl).map
            (fun n => (⟨id, n, none, true⟩ : InputRow))).filter
          (fun r => decide (r.templateId = id)) := by
      rw [rowsFor, h0]
    rw [h1, List.filter_append]
    have h2 : (db.inputs.filter (fun r => decide (r.templateId ≠ id))).filter
        (fun r => decide (r.templateId = id)) = [] := by
      rw [List.filter_eq_nil_iff]
      intro r hr
      have hne := List.of_mem_filter hr
      simp at hne
      simp [hne]
    have h3 : ((extractInputs newTpl).map
        (fun n => (⟨id, n, none, true⟩ : InputRow))).filter
        (fun r => decide (r.templateId = id)) =
        (extractInputs newTpl).map (fun n => ⟨id, n, none, true⟩) := by
      rw [List.filter_eq_self]
      intro r hr
      obtain ⟨n, _, rfl⟩ := List.mem_map.1 hr
      simp
    rw [h2, h3, List.nil_append, List.map_map]
    show List.map (fun n => n) (extractInputs newTpl) = extractInputs newTpl
    simp
  · intro id nm ds t0 hfind
    simp only [update_prompt_template, hfind]
/-- C5 witness: saving a one-placeholder body stores exactly that input,
updating the body to a different placeholder replaces the row, and an update
without a body leaves the rows untouched. -/
theorem c5_inputs_track_body_witness :
    ((rowsFor (save_prompt_template dbD ['1'] ['j'] ['m'] none
        ['{', 'z', '}']) ['j']).map (fun r => r.name) =
      extractInputs ['{', 'z', '}']) ∧
    ((rowsFor (update_prompt_template dbD ['i'] none none
        (some ['{', 'y', '}'])).1 ['i']).map (fun r => r.name) =
      extractInputs ['{', 'y', '}']) ∧
    ((update_prompt_template dbD ['i'] none none none).1.inputs = dbD.inputs) :=
  ⟨(c5_inputs_track_body dbD).1 ['1'] ['j'] ['m'] none ['{', 'z', '}'] (by decide),
   (c5_inputs_track_body dbD).2.1 ['i'] none none ['{', 'y', '}'] tplD (by decide),
   (c5_inputs_track_body dbD).2.2 ['i'] none none tplD (by decide)⟩

/-- C7: extractInputs returns the scan's match bodies with duplicates
collapsed in first-occurrence order (and hence without duplicates); on the
claim's concrete inputs it yields [a, b] for the a-b-a body and [a] for the
body with unmatched braces. -/
theorem c7_extract_first_occurrence (t : Str) :
    extractInputs t = dedupKeepFirst (extractScan t) ∧
    (extractInputs t).Nodup ∧
    extractInputs ['{', 'a', '}', '-', '{', 'b', '}', '-', '{', 'a', '}']
      = [['a'], ['b']] ∧
    extractInputs ['{', 'a', '}', ' ', '}', ' ', '{', 'b'] = [['a']] :=
  ⟨extractInputs_eq_dedup t, extractInputs_nodup t, by decide, by decide⟩

/-- C8: an update or delete whose id is absent from the store returns the
not-found outcome carrying that id, flagged as an error result, and leaves
the store (and for delete the catalog) untouched. -/
theorem c8_not_found_unchanged (db : Db) (cat : List Str) (id : Str)
    (nm ds tpl : Option Str)
    (h : ∀ t ∈ db.templates, t.id ≠ id) :
    update_prompt_template db id nm ds tpl = (db, .notFound id) ∧
    delete_prompt_template db cat id = (db, cat, .notFound id) ∧
    (MutOutcome.notFound id).isError = true := by
  have hfind : db.templates.find? (fun t => decide (t.id = id)) = none := by
    rw [List.find?_eq_none]
    intro t ht
    simp [h t ht]
  refine ⟨?_, ?_, rfl⟩
  · simp [update_prompt_template, hfind]
  · simp [delete_prompt_template, hfind]

/-- C8 witness: with the one-template store and a fresh id, both operations
return not-found and change nothing. -/
theorem c8_not_found_unchanged_witness :
    (∀ t ∈ dbD.templates, t.id ≠ ['q']) ∧
    (update_prompt_template dbD ['q'] none none none = (dbD, .notFound ['q']) ∧
     delete_prompt_template dbD [['n']] ['q'] = (dbD, [['n']], .notFound ['q']) ∧
     (MutOutcome.notFound ['q']).isError = true) :=
  ⟨by decide, c8_not_found_unchanged dbD [['n']] ['q'] none none none (by decide)⟩

/-- C9: after a successful delete no input row for the deleted id remains,
the template's name is gone from the catalog, and — when the name was unique
among stored templates — a later get_prompt_by_name for it is not-found. -/
theorem c9_delete_cascades (db : Db) (cat : List Str) (id : Str) (t : Template)
    (hfind : db.templates.find? (fun u => decide (u.id = id)) = some t)
    (huniq : ∀ u ∈ db.templates, u.name = t.name → u.id = id) :
    (delete_prompt_template db cat id).2.2 = .ok t ∧
    (∀ r ∈ (delete_prompt_template db cat id).1.inputs, r.templateId ≠ id) ∧
    t.name ∉ (delete_prompt_template db cat id).2.1 ∧
    (∀ vs, get_prompt_by_name (delete_prompt_template db cat id).1 t.name vs =
      .notFound t.name) := by
  refine ⟨?_, ?_, ?_, ?_⟩
  · simp [delete_prompt_template, hfind]
  · intro r hr
    simp only [delete_prompt_template, hfind] at hr
    have hcond := List.of_mem_filter hr
    simpa using hcond
  · intro hmem
    simp only [delete_prompt_template, hfind] at hmem
    have hcond := List.of_mem_filter hmem
    simp at hcond
  · intro vs
    have hnone : (delete_prompt_template db cat id).1.templates.find?
        (fun u => decide (u.name = t.name)) = none := by
      rw [List.find?_eq_none]
      intro u hu
      simp only [delete_prompt_template, hfind] at hu
      have humem := List.mem_of_mem_filter hu
      have hcond := List.of_mem_filter hu
      simp only [decide_eq_true_eq] at hcond ⊢
      intro hname
      exact hcond (huniq u humem hname)
    simp [get_prompt_by_name, hnone]

/-- C9 witness: deleting the stored template with id i removes its input
row, drops n from the catalog, and makes a later lookup of n fail. -/
theorem c9_delete_cascades_witness :
    (dbD.templates.find? (fun u => decide (u.id = ['i'])) = some tplD) ∧
    ((delete_prompt_template dbD [['n']] ['i']).2.2 = .ok tplD ∧
     (∀ r ∈ (delete_prompt_template dbD [['n']] ['i']).1.inputs,
        r.templateId ≠ ['i']) ∧
     tplD.name ∉ (delete_prompt_template dbD [['n']] ['i']).2.1 ∧
     (∀ vs, get_prompt_by_name (delete_prompt_template dbD [['n']] ['i']).1
        tplD.name vs = .notFound tplD.name)) :=
  ⟨by decide, c9_delete_cascades dbD [['n']] ['i'] tplD (by decide) (by decide)⟩

/-- C10: every extracted identifier is nonempty and free of closing braces
(the empty braces span is never extracted), while an identifier may contain
an opening brace, as on the claim's concrete input. -/
theorem c10_names_nonempty_no_closing_brace :
    (∀ t x : Str, x ∈ extractInputs t → x ≠ [] ∧ '}' ∉ x) ∧
    extractInputs ['{', 'a', '{', 'b', '}'] = [['a', '{', 'b']] ∧
    extractInputs ['{', '}'] = [] :=
  ⟨fun _ _ h => extract_names_ok h, by decide, by decide⟩

/-- C10 witness: the identifier a extracted from its one-placeholder body is
nonempty and contains no closing brace. -/
theorem c10_names_witness :
    (['a'] ∈ extractInputs ['{', 'a', '}']) ∧ (['a'] ≠ [] ∧ '}' ∉ ['a']) :=
  ⟨by decide,
   c10_names_nonempty_no_closing_brace.1 ['{', 'a', '}'] ['a'] (by decide)⟩
